import Mathlib

/-!
Verification of the `mylog` crate (a stderr-based logger):
a shallow embedding of `src/spec.rs` (the level-filtering specification),
`src/entry_buf.rs` (the bounded entry buffer) and `src/lib.rs`
(the logger and its asynchronous exchange), with theorems checking the
natural-language specification against the code.
-/

namespace Mylog

/-! ## Level filters (the `log` crate's `LevelFilter` and `Level` types)

`LevelFilter` is the totally ordered enum `Off < Error < Warn < Info < Debug < Trace`;
`Level` omits `Off`.  Both are compared by their numeric discriminant, mirroring
the derived `Ord` of the `log` crate. -/

inductive LevelFilter where
  | Off
  | Error
  | Warn
  | Info
  | Debug
  | Trace
deriving DecidableEq, Repr

/-- Numeric discriminant of a `LevelFilter`, used for all comparisons
(mirrors `usize` casts in the `log` crate's derived `Ord`). -/
def LevelFilter.toNat : LevelFilter → Nat
  | .Off => 0
  | .Error => 1
  | .Warn => 2
  | .Info => 3
  | .Debug => 4
  | .Trace => 5

/-- `Ord::max` on `LevelFilter`: the larger of the two by discriminant. -/
def LevelFilter.lmax (a b : LevelFilter) : LevelFilter :=
  if a.toNat ≤ b.toNat then b else a

/-- `LevelFilter::max()` in the `log` crate: the most verbose filter, `Trace`. -/
def LevelFilter.maxLevel : LevelFilter := .Trace

/-- The `log` crate's `Level` enum (`Error < Warn < Info < Debug < Trace`). -/
inductive Level where
  | Error
  | Warn
  | Info
  | Debug
  | Trace
deriving DecidableEq, Repr

/-- Numeric discriminant of a `Level` (`Error = 1`, ..., `Trace = 5`);
`LevelFilter >= Level` in the source compares these discriminants. -/
def Level.toNat : Level → Nat
  | .Error => 1
  | .Warn => 2
  | .Info => 3
  | .Debug => 4
  | .Trace => 5

/-! ## Specification parsing (`src/spec.rs`) -/

/-- ASCII lower-casing of a character (used by the `log` crate's
case-insensitive level-name comparison `eq_ignore_ascii_case`). -/
def asciiLowerChar (c : Char) : Char :=
  if 'A' ≤ c ∧ c ≤ 'Z' then Char.ofNat (c.toNat + 32) else c

/-- ASCII lower-casing of a string. -/
def asciiLower (s : String) : String :=
  String.mk (s.data.map asciiLowerChar)

/-- `LevelFilter::from_str` of the `log` crate: match the token
case-insensitively against the level names. -/
def parseLevel (s : String) : Option LevelFilter :=
  let l := asciiLower s
  if l = "off" then some .Off
  else if l = "error" then some .Error
  else if l = "warn" then some .Warn
  else if l = "info" then some .Info
  else if l = "debug" then some .Debug
  else if l = "trace" then some .Trace
  else none

/-- Splitting a character list on a separator character, keeping empty
pieces: the semantics of Rust's `str::split(char)`. -/
def splitOnChar (c : Char) : List Char → List (List Char)
  | [] => [[]]
  | x :: rest =>
    let r := splitOnChar c rest
    if x == c then [] :: r
    else
      match r with
      | [] => [[x]]
      | h :: t => (x :: h) :: t

/-- Rust's `d.splitn(2, '=')` made total: the part before the first `=`,
and (when a `=` is present) everything after it. -/
def splitFirstEq : List Char → List Char × Option (List Char)
  | [] => ([], none)
  | x :: rest =>
    if x == '=' then ([], some rest)
    else
      let (p, r) := splitFirstEq rest
      (x :: p, r)

/-- `splitFirstEq` lifted to `String`. -/
def splitEq (d : String) : String × Option String :=
  let (p, r) := splitFirstEq d.data
  (String.mk p, r.map String.mk)

/-- One iteration of the parsing loop of `Specification::new`
(src/spec.rs lines 16-40): `none` models `continue` (empty token, or a
token whose level after `=` fails to parse and is dropped with a
diagnostic).  A directive is `(level, prefix string)`. -/
def parseDirective (d : String) : Option (LevelFilter × String) :=
  if d.data.isEmpty then none
  else
    match splitEq d with
    | (p, none) =>
      match parseLevel p with
      | some level => some (level, "")
      | none => some (LevelFilter.maxLevel, p)
    | (p, some l) =>
      match parseLevel l with
      | some l' => some (l', p)
      | none => none

/-- The parsing loop of `Specification::new`: split the spec string on `,`
and collect the surviving directives in order. -/
def parseDirectives (spec : String) : List (LevelFilter × String) :=
  ((splitOnChar ',' spec.data).map String.mk).filterMap parseDirective

/-- src/spec.rs lines 42-44: if no directive survived parsing, push the
single default directive `(Error, "")`. -/
def defaulted (l : List (LevelFilter × String)) : List (LevelFilter × String) :=
  if l.isEmpty then [(LevelFilter.Error, "")] else l

/-- Insert a directive into an already-sorted (by descending prefix-string
length) list, before the first entry whose prefix string is no longer than
its own.  `sortDirs` built from this is exactly a stable sort by descending
prefix length, which is what `directives.sort_by_key(|p| usize::MAX - p.len())`
(a stable sort on the reversed length key, src/spec.rs line 47) performs. -/
def insertDir (d : LevelFilter × String) :
    List (LevelFilter × String) → List (LevelFilter × String)
  | [] => [d]
  | e :: rest =>
    if e.2.length ≤ d.2.length then d :: e :: rest else e :: insertDir d rest

/-- Stable sort of the directives by descending prefix-string length
(src/spec.rs line 47). -/
def sortDirs : List (LevelFilter × String) → List (LevelFilter × String)
  | [] => []
  | d :: rest => insertDir d (sortDirs rest)

/-- Iterator `max` over the directive levels with `unwrap_or(Off)`
(src/spec.rs lines 48-52). -/
def maxOf (ds : List (LevelFilter × String)) : LevelFilter :=
  ds.foldl (fun acc d => acc.lmax d.1) LevelFilter.Off

/-- The compiled logging specification (src/spec.rs lines 5-11). -/
structure Specification where
  /-- `(filter, prefix string)` pairs, most specific prefixes first. -/
  directives : List (LevelFilter × String)
  /-- The most detailed log level of any module. -/
  max : LevelFilter
deriving Repr

/-- `Specification::new` (src/spec.rs lines 14-54): parse, default,
stable-sort by descending prefix length, record the maximum level. -/
def Specification.new (spec : String) : Specification :=
  let ds := sortDirs (defaulted (parseDirectives spec))
  { directives := ds, max := maxOf ds }

/-- Rust's `module.starts_with(prefix)`: byte (equivalently, for valid
UTF-8 strings, character) prefix test. -/
def strStartsWith (module pre : String) : Bool :=
  pre.data.isPrefixOf module.data

/-- `Specification::get_level` (src/spec.rs lines 56-63): the level of
the first directive whose prefix string is a prefix of `module`, else `Off`. -/
def Specification.get_level (s : Specification) (module : String) : LevelFilter :=
  match s.directives.find? (fun d => strStartsWith module d.2) with
  | some d => d.1
  | none => LevelFilter.Off

/-! ## Lemmas about the directive sort -/

lemma insertDir_perm (d : LevelFilter × String) (l : List (LevelFilter × String)) :
    (insertDir d l).Perm (d :: l) := by
  induction l with
  | nil => exact List.Perm.refl _
  | cons e rest ih =>
    simp only [insertDir]
    split
    · exact List.Perm.refl _
    · exact (ih.cons e).trans (List.Perm.swap d e rest)

lemma sortDirs_perm (l : List (LevelFilter × String)) : (sortDirs l).Perm l := by
  induction l with
  | nil => exact List.Perm.refl _
  | cons d rest ih =>
    exact (insertDir_perm d (sortDirs rest)).trans (ih.cons d)

lemma pairwise_insertDir (d : LevelFilter × String) (l : List (LevelFilter × String))
    (h : l.Pairwise (fun a b => b.2.length ≤ a.2.length)) :
    (insertDir d l).Pairwise (fun a b => b.2.length ≤ a.2.length) := by
  induction l with
  | nil => simp [insertDir]
  | cons e rest ih =>
    rw [List.pairwise_cons] at h
    obtain ⟨he, hrest⟩ := h
    by_cases hc : e.2.length ≤ d.2.length
    · simp only [insertDir, if_pos hc]
      refine List.pairwise_cons.mpr ⟨?_, List.pairwise_cons.mpr ⟨he, hrest⟩⟩
      intro x hx
      rcases List.mem_cons.mp hx with hx | hx
      · exact hx ▸ hc
      · exact le_trans (he x hx) hc
    · simp only [insertDir, if_neg hc]
      refine List.pairwise_cons.mpr ⟨?_, ih hrest⟩
      intro x hx
      rcases List.mem_cons.mp ((insertDir_perm d rest).mem_iff.mp hx) with hx | hx
      · subst hx; omega
      · exact he x hx

lemma pairwise_sortDirs (l : List (LevelFilter × String)) :
    (sortDirs l).Pairwise (fun a b => b.2.length ≤ a.2.length) := by
  induction l with
  | nil => simp [sortDirs]
  | cons d rest ih => exact pairwise_insertDir d (sortDirs rest) ih

lemma filter_insertDir (d : LevelFilter × String) (l : List (LevelFilter × String)) (n : Nat) :
    (insertDir d l).filter (fun x => x.2.length == n) =
      if d.2.length == n then d :: l.filter (fun x => x.2.length == n)
      else l.filter (fun x => x.2.length == n) := by
  induction l with
  | nil =>
    by_cases hd : d.2.length = n
    · simp [insertDir, List.filter_cons, hd]
    · simp [insertDir, List.filter_cons, hd]
  | cons e rest ih =>
    by_cases hc : e.2.length ≤ d.2.length
    · simp only [insertDir, if_pos hc]
      by_cases hd : d.2.length = n
      · simp [List.filter_cons, hd]
      · simp [List.filter_cons, hd]
    · simp only [insertDir, if_neg hc]
      by_cases hd : d.2.length = n
      · have hen : ¬ (e.2.length = n) := by omega
        simp [List.filter_cons, hd, hen, ih]
      · by_cases hen : e.2.length = n
        · simp [List.filter_cons, hd, hen, ih]
        · simp [List.filter_cons, hd, hen, ih]

lemma filter_sortDirs (l : List (LevelFilter × String)) (n : Nat) :
    (sortDirs l).filter (fun x => x.2.length == n) =
      l.filter (fun x => x.2.length == n) := by
  induction l with
  | nil => rfl
  | cons d rest ih =>
    simp only [sortDirs, filter_insertDir]
    by_cases hd : d.2.length = n
    · simp [List.filter_cons, hd, ih]
    · simp [List.filter_cons, hd, ih]

lemma defaulted_ne_nil (l : List (LevelFilter × String)) : defaulted l ≠ [] := by
  unfold defaulted
  cases l <;> simp

/-! ## Claims about the Specification -/

/-- C1: `get_level` scans the compiled directives, which are exactly the
parsed directives (with the default applied) in descending-prefix-length
order with ties keeping their original relative order, and returns the
level of the first directive whose prefix is a literal prefix of the
target, `Off` when none matches. -/
theorem c1_get_level_scans_sorted_directives (s target : String) :
    ((Specification.new s).directives.Pairwise (fun a b => b.2.length ≤ a.2.length)) ∧
    ((Specification.new s).directives.Perm (defaulted (parseDirectives s))) ∧
    (∀ n : Nat, (Specification.new s).directives.filter (fun x => x.2.length == n) =
      (defaulted (parseDirectives s)).filter (fun x => x.2.length == n)) ∧
    ((Specification.new s).get_level target =
      match (Specification.new s).directives.find? (fun d => strStartsWith target d.2) with
      | some d => d.1
      | none => LevelFilter.Off) := by
  refine ⟨pairwise_sortDirs _, sortDirs_perm _, fun n => filter_sortDirs _ n, rfl⟩

/-- C6: the example specification
`"info,crate1=off,crate2=warn,crate2::inner=trace,crate3"` compiles to
`max = Trace` and gives the longest-prefix-match levels of the claim. -/
theorem c6_longest_prefix_example :
    (Specification.new "info,crate1=off,crate2=warn,crate2::inner=trace,crate3").max
        = LevelFilter.Trace ∧
    (Specification.new "info,crate1=off,crate2=warn,crate2::inner=trace,crate3").get_level
        "crate1" = LevelFilter.Off ∧
    (Specification.new "info,crate1=off,crate2=warn,crate2::inner=trace,crate3").get_level
        "crate2::x" = LevelFilter.Warn ∧
    (Specification.new "info,crate1=off,crate2=warn,crate2::inner=trace,crate3").get_level
        "crate2::inner::y" = LevelFilter.Trace ∧
    (Specification.new "info,crate1=off,crate2=warn,crate2::inner=trace,crate3").get_level
        "crate3" = LevelFilter.Trace ∧
    (Specification.new "info,crate1=off,crate2=warn,crate2::inner=trace,crate3").get_level
        "crate4" = LevelFilter.Info := by
  refine ⟨by decide, by decide, by decide, by decide, by decide, by decide⟩

/-- C7: every compiled specification has at least one directive, and the
empty specification compiles to exactly the single default directive
`("", Error)`, so its `get_level` is `Error` on every target and its
`max` is `Error`. -/
theorem c7_default_specification (s target : String) :
    (Specification.new s).directives ≠ [] ∧
    (Specification.new "").directives = [(LevelFilter.Error, "")] ∧
    (Specification.new "").get_level target = LevelFilter.Error ∧
    (Specification.new "").max = LevelFilter.Error := by
  refine ⟨?_, by decide, ?_, by decide⟩
  · intro h
    have := (sortDirs_perm (defaulted (parseDirectives s))).length_eq
    rw [show (Specification.new s).directives = sortDirs (defaulted (parseDirectives s))
      from rfl] at h
    rw [h] at this
    exact defaulted_ne_nil _ (List.length_eq_zero.mp this.symm)
  · have hd : (Specification.new "").directives = [(LevelFilter.Error, "")] := by decide
    simp only [Specification.get_level, hd, List.find?, strStartsWith]
    simp [List.isPrefixOf]

/-! ## EntryBuf (src/entry_buf.rs)

The buffer is modelled as the list of its initialized bytes (`&buf[0..len]`
in the source); `len` is the list's length.  The two phase types
`EntryBuf<Writing>` / `EntryBuf<Reading>` become two structures. -/

/-- `MAX_ENTRY_SIZE` (src/lib.rs line 21): maximum bytes of a single log
entry including the trailing newline. -/
def MAX_ENTRY_SIZE : Nat := 65536

/-- `ASYNC_BUF_SIZE` (src/lib.rs line 29): size of the asynchronous buffer. -/
def ASYNC_BUF_SIZE : Nat := 1048576

/-- The source's test `(b & 0b1100_0000) == 0b1000_0000` for a UTF-8
continuation byte (src/entry_buf.rs line 92). -/
def isContByte (b : Nat) : Bool := Nat.land b 192 == 128

/-- Interval form of the continuation-byte test; agrees with `isContByte`
on byte values (see `isContByte_eq_isContR`). -/
def isContR (b : Nat) : Bool := decide (128 ≤ b ∧ b ≤ 191)

set_option maxRecDepth 4096 in
lemma isContByte_eq_isContR : ∀ b < 256, isContByte b = isContR b := by decide

/-- Validity of the first continuation byte of a multi-byte UTF-8 sequence
led by `b`, per RFC 3629 (this is the well-formedness invariant of Rust's
`str`, whose encoding forbids surrogates and overlong/out-of-range forms). -/
def contOk1 (b c : Nat) : Bool :=
  if b = 224 then decide (160 ≤ c ∧ c ≤ 191)
  else if b = 237 then decide (128 ≤ c ∧ c ≤ 159)
  else if b = 240 then decide (144 ≤ c ∧ c ≤ 191)
  else if b = 244 then decide (128 ≤ c ∧ c ≤ 143)
  else isContR c

/-- Consume one complete UTF-8 scalar encoding (RFC 3629) from the front
of the list, returning the remainder, or `none` when the front is not a
complete valid encoding. -/
def utf8Chunk : List Nat → Option (List Nat)
  | [] => none
  | b :: rest =>
    if b ≤ 127 then some rest
    else if 194 ≤ b ∧ b ≤ 223 then
      match rest with
      | c1 :: rest2 => if contOk1 b c1 then some rest2 else none
      | [] => none
    else if 224 ≤ b ∧ b ≤ 239 then
      match rest with
      | c1 :: c2 :: rest2 => if contOk1 b c1 && isContR c2 then some rest2 else none
      | _ => none
    else if 240 ≤ b ∧ b ≤ 244 then
      match rest with
      | c1 :: c2 :: c3 :: rest2 =>
        if contOk1 b c1 && isContR c2 && isContR c3 then some rest2 else none
      | _ => none
    else none

/-- Fuel-based UTF-8 validity check: repeatedly consume one scalar
encoding.  The fuel only bounds the recursion; any fuel at least the
list's length gives the same answer (`utf8ValidFuel_congr`). -/
def utf8ValidFuel : Nat → List Nat → Bool
  | _, [] => true
  | 0, _ :: _ => false
  | n + 1, b :: rest =>
    match utf8Chunk (b :: rest) with
    | none => false
    | some r => utf8ValidFuel n r

/-- Well-formed UTF-8 byte sequences (RFC 3629), the invariant every
Rust `&str` satisfies: a sequence of one- to four-byte scalar encodings. -/
def utf8Valid (l : List Nat) : Bool := utf8ValidFuel l.length l

/-- The back-off loop of `write_str` (src/entry_buf.rs lines 92-95):
starting from a tentative cut point, step back while the byte at the cut
point is a UTF-8 continuation byte. -/
def backUp (s : List Nat) : Nat → Nat
  | 0 => 0
  | k + 1 => if isContByte (s.getD (k + 1) 0) then backUp s k else k + 1

/-- `EntryBuf<Writing>` (src/entry_buf.rs lines 18-29): the initialized,
valid-UTF-8 prefix of the stack buffer while the entry is being written. -/
structure EntryBufW where
  data : List Nat
deriving DecidableEq, Repr

/-- `EntryBuf<Reading>`: the buffer after termination. -/
structure EntryBufR where
  data : List Nat
deriving DecidableEq, Repr

/-- `EntryBuf::new` (src/entry_buf.rs lines 32-38): empty buffer. -/
def EntryBufW.new : EntryBufW := ⟨[]⟩

/-- `write_str` (src/entry_buf.rs lines 83-106).  Returns the updated
buffer and `true` for `Ok(())`, `false` for `Err` (truncation). -/
def EntryBufW.write_str (b : EntryBufW) (s : List Nat) : EntryBufW × Bool :=
  if b.data.length = MAX_ENTRY_SIZE then (b, false)
  else
    let cap := MAX_ENTRY_SIZE - 1 - b.data.length
    let toWrite := if cap < s.length then backUp s cap else s.length
    (⟨b.data ++ s.take toWrite⟩, toWrite == s.length)

/-- `terminate` (src/entry_buf.rs lines 41-52): append the newline byte
and transition to the Reading phase. -/
def EntryBufW.terminate (b : EntryBufW) : EntryBufR := ⟨b.data ++ [10]⟩

/-- `EntryBuf::<Reading>::get` (src/entry_buf.rs lines 61-74): the
written prefix of the buffer. -/
def EntryBufR.get (b : EntryBufR) : List Nat := b.data

/-- The Writing-phase buffers reachable in the source: produced by
`EntryBuf::new` followed by any sequence of `write_str` calls whose
arguments are Rust `&str` values (well-formed UTF-8). -/
inductive ReachableW : EntryBufW → Prop where
  | new : ReachableW EntryBufW.new
  | write (b : EntryBufW) (s : List Nat) (h : ReachableW b)
      (hs : utf8Valid s = true) : ReachableW (b.write_str s).1

/-! ## Lemmas about UTF-8 well-formedness -/

lemma contOk1_isContR (b c : Nat) (h : contOk1 b c = true) : isContR c = true := by
  unfold contOk1 at h
  split at h
  · simp only [isContR, decide_eq_true_eq] at h ⊢; omega
  · split at h
    · simp only [isContR, decide_eq_true_eq] at h ⊢; omega
    · split at h
      · simp only [isContR, decide_eq_true_eq] at h ⊢; omega
      · split at h
        · simp only [isContR, decide_eq_true_eq] at h ⊢; omega
        · exact h

lemma isContR_lt (c : Nat) (h : isContR c = true) : c < 256 := by
  simp only [isContR, decide_eq_true_eq] at h; omega

lemma utf8Chunk_length_lt (l r : List Nat) (h : utf8Chunk l = some r) :
    r.length < l.length := by
  unfold utf8Chunk at h
  repeat' split at h
  all_goals first
    | (injection h with h; subst h; simp only [List.length_cons]; omega)
    | exact absurd h (by simp)

lemma utf8ValidFuel_congr (n : Nat) : ∀ (m : Nat) (l : List Nat),
    l.length ≤ n → l.length ≤ m → utf8ValidFuel n l = utf8ValidFuel m l := by
  induction n with
  | zero =>
    intro m l h0 hm
    have : l = [] := List.length_eq_zero.mp (Nat.le_zero.mp h0)
    subst this
    cases m <;> rfl
  | succ n ih =>
    intro m l hn hm
    match l with
    | [] => cases m <;> rfl
    | b :: rest =>
      match m with
      | 0 => simp at hm
      | m + 1 =>
        rw [utf8ValidFuel, utf8ValidFuel]
        cases hc : utf8Chunk (b :: rest) with
        | none => rfl
        | some r =>
          have hlt := utf8Chunk_length_lt _ _ hc
          simp only [List.length_cons] at hn hm hlt
          exact ih m r (by omega) (by omega)

lemma utf8Valid_chunk (l r : List Nat) (h : utf8Chunk l = some r) :
    utf8Valid l = utf8Valid r := by
  match l with
  | [] => simp [utf8Chunk] at h
  | b :: rest =>
    show utf8ValidFuel (rest.length + 1) (b :: rest) = utf8ValidFuel r.length r
    rw [utf8ValidFuel, h]
    have hlt := utf8Chunk_length_lt _ _ h
    simp only [List.length_cons] at hlt
    exact utf8ValidFuel_congr rest.length r.length r (by omega) le_rfl

lemma utf8Chunk_ascii (b : Nat) (rest : List Nat) (hb : b ≤ 127) :
    utf8Chunk (b :: rest) = some rest := by
  simp only [utf8Chunk]
  rw [if_pos hb]

lemma utf8Chunk2 (b c1 : Nat) (rest : List Nat) (hb1 : 194 ≤ b) (hb2 : b ≤ 223)
    (hc : contOk1 b c1 = true) : utf8Chunk (b :: c1 :: rest) = some rest := by
  simp only [utf8Chunk]
  rw [if_neg (by omega : ¬ b ≤ 127), if_pos (⟨hb1, hb2⟩ : 194 ≤ b ∧ b ≤ 223)]
  simp [hc]

lemma utf8Chunk3 (b c1 c2 : Nat) (rest : List Nat) (hb1 : 224 ≤ b) (hb2 : b ≤ 239)
    (hc1 : contOk1 b c1 = true) (hc2 : isContR c2 = true) :
    utf8Chunk (b :: c1 :: c2 :: rest) = some rest := by
  simp only [utf8Chunk]
  rw [if_neg (by omega : ¬ b ≤ 127), if_neg (by omega : ¬ (194 ≤ b ∧ b ≤ 223)),
    if_pos (⟨hb1, hb2⟩ : 224 ≤ b ∧ b ≤ 239)]
  simp [hc1, hc2]

lemma utf8Chunk4 (b c1 c2 c3 : Nat) (rest : List Nat) (hb1 : 240 ≤ b) (hb2 : b ≤ 244)
    (hc1 : contOk1 b c1 = true) (hc2 : isContR c2 = true) (hc3 : isContR c3 = true) :
    utf8Chunk (b :: c1 :: c2 :: c3 :: rest) = some rest := by
  simp only [utf8Chunk]
  rw [if_neg (by omega : ¬ b ≤ 127), if_neg (by omega : ¬ (194 ≤ b ∧ b ≤ 223)),
    if_neg (by omega : ¬ (224 ≤ b ∧ b ≤ 239)), if_pos (⟨hb1, hb2⟩ : 240 ≤ b ∧ b ≤ 244)]
  simp [hc1, hc2, hc3]

/-- A non-empty well-formed byte list consumes a chunk with a well-formed
remainder. -/
lemma utf8Valid_nonempty_chunk (l : List Nat) (hne : l ≠ []) (h : utf8Valid l = true) :
    ∃ r, utf8Chunk l = some r ∧ utf8Valid r = true := by
  match l with
  | [] => exact absurd rfl hne
  | b :: rest =>
    have h' : utf8ValidFuel (rest.length + 1) (b :: rest) = true := h
    rw [utf8ValidFuel] at h'
    cases hc : utf8Chunk (b :: rest) with
    | none => rw [hc] at h'; exact absurd h' (by simp)
    | some r =>
      rw [hc] at h'
      refine ⟨r, rfl, ?_⟩
      have hlt := utf8Chunk_length_lt _ _ hc
      simp only [List.length_cons] at hlt
      show utf8ValidFuel r.length r = true
      rw [utf8ValidFuel_congr r.length rest.length r le_rfl (by omega)]
      exact h'

/-- A well-formed byte list is empty or starts with a complete one- to
four-byte scalar encoding followed by a well-formed remainder. -/
lemma utf8_chunk_cases (l : List Nat) (h : utf8Valid l = true) :
    l = [] ∨
    (∃ b rest, l = b :: rest ∧ b ≤ 127 ∧ utf8Valid rest = true) ∨
    (∃ b c1 rest, l = b :: c1 :: rest ∧ 194 ≤ b ∧ b ≤ 223 ∧
      contOk1 b c1 = true ∧ utf8Valid rest = true) ∨
    (∃ b c1 c2 rest, l = b :: c1 :: c2 :: rest ∧ 224 ≤ b ∧ b ≤ 239 ∧
      contOk1 b c1 = true ∧ isContR c2 = true ∧ utf8Valid rest = true) ∨
    (∃ b c1 c2 c3 rest, l = b :: c1 :: c2 :: c3 :: rest ∧ 240 ≤ b ∧ b ≤ 244 ∧
      contOk1 b c1 = true ∧ isContR c2 = true ∧ isContR c3 = true ∧
      utf8Valid rest = true) := by
  by_cases hnil : l = []
  · exact Or.inl hnil
  obtain ⟨r, hc, hv⟩ := utf8Valid_nonempty_chunk l hnil h
  unfold utf8Chunk at hc
  repeat' split at hc
  all_goals try exact Option.noConfusion hc
  all_goals injection hc with hc
  all_goals subst hc
  · rename_i b rest hb
    exact Or.inr (Or.inl ⟨b, rest, rfl, hb, hv⟩)
  · rename_i b hx hrange rest c1 rest2 hcc
    exact Or.inr (Or.inr (Or.inl ⟨b, c1, rest2, rfl, hrange.1, hrange.2, hcc, hv⟩))
  · rename_i b h1 h2 hrange rest c1 c2 rest2 hcc
    rw [Bool.and_eq_true] at hcc
    exact Or.inr (Or.inr (Or.inr (Or.inl
      ⟨b, c1, c2, rest2, rfl, hrange.1, hrange.2, hcc.1, hcc.2, hv⟩)))
  · rename_i b h1 h2 h3 hrange rest c1 c2 c3 rest2 hcc
    rw [Bool.and_eq_true, Bool.and_eq_true] at hcc
    exact Or.inr (Or.inr (Or.inr (Or.inr
      ⟨b, c1, c2, c3, rest2, rfl, hrange.1, hrange.2, hcc.1.1, hcc.1.2, hcc.2, hv⟩)))

lemma utf8Valid_bytes_aux : ∀ (n : Nat) (l : List Nat), l.length ≤ n →
    utf8Valid l = true → ∀ x ∈ l, x < 256 := by
  intro n
  induction n with
  | zero =>
    intro l hl _ x hx
    have : l = [] := List.length_eq_zero.mp (Nat.le_zero.mp hl)
    subst this
    simp at hx
  | succ n ih =>
    intro l hl hv x hx
    rcases utf8_chunk_cases l hv with rfl | ⟨b, rest, rfl, hb, hrest⟩
      | ⟨b, c1, rest, rfl, hb1, hb2, hc1, hrest⟩
      | ⟨b, c1, c2, rest, rfl, hb1, hb2, hc1, hc2, hrest⟩
      | ⟨b, c1, c2, c3, rest, rfl, hb1, hb2, hc1, hc2, hc3, hrest⟩
    · simp at hx
    · rcases List.mem_cons.mp hx with rfl | hx
      · omega
      · exact ih rest (by simp only [List.length_cons] at hl; omega) hrest x hx
    · rcases List.mem_cons.mp hx with rfl | hx
      · omega
      rcases List.mem_cons.mp hx with rfl | hx
      · exact isContR_lt _ (contOk1_isContR _ _ hc1)
      · exact ih rest (by simp only [List.length_cons] at hl; omega) hrest x hx
    · rcases List.mem_cons.mp hx with rfl | hx
      · omega
      rcases List.mem_cons.mp hx with rfl | hx
      · exact isContR_lt _ (contOk1_isContR _ _ hc1)
      rcases List.mem_cons.mp hx with rfl | hx
      · exact isContR_lt _ hc2
      · exact ih rest (by simp only [List.length_cons] at hl; omega) hrest x hx
    · rcases List.mem_cons.mp hx with rfl | hx
      · omega
      rcases List.mem_cons.mp hx with rfl | hx
      · exact isContR_lt _ (contOk1_isContR _ _ hc1)
      rcases List.mem_cons.mp hx with rfl | hx
      · exact isContR_lt _ hc2
      rcases List.mem_cons.mp hx with rfl | hx
      · exact isContR_lt _ hc3
      · exact ih rest (by simp only [List.length_cons] at hl; omega) hrest x hx

/-- Every byte of a well-formed UTF-8 sequence is a byte value. -/
lemma utf8Valid_bytes (l : List Nat) (h : utf8Valid l = true) : ∀ x ∈ l, x < 256 :=
  utf8Valid_bytes_aux l.length l le_rfl h

lemma utf8Valid_append_aux : ∀ (n : Nat) (a : List Nat), a.length ≤ n →
    ∀ bl : List Nat, utf8Valid a = true → utf8Valid bl = true →
    utf8Valid (a ++ bl) = true := by
  intro n
  induction n with
  | zero =>
    intro a ha bl hva hvb
    have : a = [] := List.length_eq_zero.mp (Nat.le_zero.mp ha)
    subst this
    simpa using hvb
  | succ n ih =>
    intro a ha bl hva hvb
    rcases utf8_chunk_cases a hva with rfl | ⟨x, rest, rfl, hx, hrest⟩
      | ⟨x, c1, rest, rfl, hx1, hx2, hc1, hrest⟩
      | ⟨x, c1, c2, rest, rfl, hx1, hx2, hc1, hc2, hrest⟩
      | ⟨x, c1, c2, c3, rest, rfl, hx1, hx2, hc1, hc2, hc3, hrest⟩
    · simpa using hvb
    · rw [List.cons_append, utf8Valid_chunk _ _ (utf8Chunk_ascii x (rest ++ bl) hx)]
      exact ih rest (by simp only [List.length_cons] at ha; omega) bl hrest hvb
    · rw [List.cons_append, List.cons_append,
        utf8Valid_chunk _ _ (utf8Chunk2 x c1 (rest ++ bl) hx1 hx2 hc1)]
      exact ih rest (by simp only [List.length_cons] at ha; omega) bl hrest hvb
    · rw [List.cons_append, List.cons_append, List.cons_append,
        utf8Valid_chunk _ _ (utf8Chunk3 x c1 c2 (rest ++ bl) hx1 hx2 hc1 hc2)]
      exact ih rest (by simp only [List.length_cons] at ha; omega) bl hrest hvb
    · rw [List.cons_append, List.cons_append, List.cons_append, List.cons_append,
        utf8Valid_chunk _ _ (utf8Chunk4 x c1 c2 c3 (rest ++ bl) hx1 hx2 hc1 hc2 hc3)]
      exact ih rest (by simp only [List.length_cons] at ha; omega) bl hrest hvb

/-- Concatenation of well-formed UTF-8 sequences is well-formed. -/
lemma utf8Valid_append (a bl : List Nat) (ha : utf8Valid a = true)
    (hb : utf8Valid bl = true) : utf8Valid (a ++ bl) = true :=
  utf8Valid_append_aux a.length a le_rfl bl ha hb

lemma utf8Valid_take_aux : ∀ (n : Nat) (l : List Nat), l.length ≤ n → ∀ m, m ≤ l.length →
    (m = 0 ∨ m = l.length ∨ isContR (l.getD m 0) = false) →
    utf8Valid l = true → utf8Valid (l.take m) = true := by
  intro n
  induction n with
  | zero =>
    intro l hl m _ _ _
    have : l = [] := List.length_eq_zero.mp (Nat.le_zero.mp hl)
    subst this
    simp only [List.take_nil]
    rfl
  | succ n ih =>
    intro l hl m hm hb hv
    rcases Nat.eq_zero_or_pos m with rfl | hmpos
    · simp only [List.take_zero]; rfl
    rcases eq_or_lt_of_le hm with heq | hlt
    · rw [heq, List.take_length]; exact hv
    have hcont : isContR (l.getD m 0) = false := by
      rcases hb with h0 | he | hc
      · omega
      · omega
      · exact hc
    rcases utf8_chunk_cases l hv with rfl | ⟨x, rest, rfl, hx, hrest⟩
      | ⟨x, c1, rest, rfl, hx1, hx2, hc1, hrest⟩
      | ⟨x, c1, c2, rest, rfl, hx1, hx2, hc1, hc2, hrest⟩
      | ⟨x, c1, c2, c3, rest, rfl, hx1, hx2, hc1, hc2, hc3, hrest⟩
    · simp at hlt
    · obtain ⟨m', rfl⟩ : ∃ m', m = m' + 1 := ⟨m - 1, by omega⟩
      rw [List.take_succ_cons, utf8Valid_chunk _ _ (utf8Chunk_ascii x (rest.take m') hx)]
      simp only [List.length_cons] at hl hlt
      rw [List.getD_cons_succ] at hcont
      exact ih rest (by omega) m' (by omega) (Or.inr (Or.inr hcont)) hrest
    · rcases m with _ | _ | m'
      · exact absurd hmpos (lt_irrefl 0)
      · rw [List.getD_cons_succ, List.getD_cons_zero] at hcont
        exact absurd (contOk1_isContR _ _ hc1) (by rw [hcont]; simp)
      · rw [List.take_succ_cons, List.take_succ_cons,
          utf8Valid_chunk _ _ (utf8Chunk2 x c1 (rest.take m') hx1 hx2 hc1)]
        simp only [List.length_cons] at hl hlt
        rw [List.getD_cons_succ, List.getD_cons_succ] at hcont
        exact ih rest (by omega) m' (by omega) (Or.inr (Or.inr hcont)) hrest
    · rcases m with _ | _ | _ | m'
      · exact absurd hmpos (lt_irrefl 0)
      · rw [List.getD_cons_succ, List.getD_cons_zero] at hcont
        exact absurd (contOk1_isContR _ _ hc1) (by rw [hcont]; simp)
      · rw [List.getD_cons_succ, List.getD_cons_succ, List.getD_cons_zero] at hcont
        exact absurd hc2 (by rw [hcont]; simp)
      · rw [List.take_succ_cons, List.take_succ_cons, List.take_succ_cons,
          utf8Valid_chunk _ _ (utf8Chunk3 x c1 c2 (rest.take m') hx1 hx2 hc1 hc2)]
        simp only [List.length_cons] at hl hlt
        rw [List.getD_cons_succ, List.getD_cons_succ, List.getD_cons_succ] at hcont
        exact ih rest (by omega) m' (by omega) (Or.inr (Or.inr hcont)) hrest
    · rcases m with _ | _ | _ | _ | m'
      · exact absurd hmpos (lt_irrefl 0)
      · rw [List.getD_cons_succ, List.getD_cons_zero] at hcont
        exact absurd (contOk1_isContR _ _ hc1) (by rw [hcont]; simp)
      · rw [List.getD_cons_succ, List.getD_cons_succ, List.getD_cons_zero] at hcont
        exact absurd hc2 (by rw [hcont]; simp)
      · rw [List.getD_cons_succ, List.getD_cons_succ, List.getD_cons_succ,
          List.getD_cons_zero] at hcont
        exact absurd hc3 (by rw [hcont]; simp)
      · rw [List.take_succ_cons, List.take_succ_cons, List.take_succ_cons,
          List.take_succ_cons,
          utf8Valid_chunk _ _ (utf8Chunk4 x c1 c2 c3 (rest.take m') hx1 hx2 hc1 hc2 hc3)]
        simp only [List.length_cons] at hl hlt
        rw [List.getD_cons_succ, List.getD_cons_succ, List.getD_cons_succ,
          List.getD_cons_succ] at hcont
        exact ih rest (by omega) m' (by omega) (Or.inr (Or.inr hcont)) hrest

/-- Cutting a well-formed UTF-8 sequence at a position whose byte is not a
continuation byte (or at either end) leaves a well-formed prefix. -/
lemma utf8Valid_take (l : List Nat) (m : Nat) (hm : m ≤ l.length)
    (hb : m = 0 ∨ m = l.length ∨ isContR (l.getD m 0) = false)
    (hv : utf8Valid l = true) : utf8Valid (l.take m) = true :=
  utf8Valid_take_aux l.length l le_rfl m hm hb hv

lemma utf8Valid_replicate_e (n : Nat) : utf8Valid (List.replicate n 101) = true := by
  induction n with
  | zero => rfl
  | succ n ih =>
    rw [List.replicate_succ, utf8Valid_chunk _ _ (utf8Chunk_ascii 101 _ (by omega))]
    exact ih

/-! ## Lemmas about the back-off loop and `write_str` -/

lemma backUp_le (s : List Nat) (k : Nat) : backUp s k ≤ k := by
  induction k with
  | zero => exact le_rfl
  | succ k ih =>
    rw [backUp]
    split
    · omega
    · exact le_rfl

lemma backUp_boundary (s : List Nat) (k : Nat) :
    backUp s k = 0 ∨ isContByte (s.getD (backUp s k) 0) = false := by
  induction k with
  | zero => exact Or.inl rfl
  | succ k ih =>
    rw [backUp]
    split
    · exact ih
    · rename_i h
      exact Or.inr (by simpa using h)

lemma backUp_maximal (s : List Nat) (k : Nat) :
    ∀ j, backUp s k < j → j ≤ k → isContByte (s.getD j 0) = true := by
  induction k with
  | zero =>
    intro j h1 h2
    omega
  | succ k ih =>
    intro j h1 h2
    rw [backUp] at h1
    by_cases hc : isContByte (s.getD (k + 1) 0) = true
    · rw [if_pos hc] at h1
      rcases eq_or_lt_of_le h2 with rfl | hlt
      · exact hc
      · exact ih j h1 (by omega)
    · rw [if_neg hc] at h1
      exact absurd h2 (by omega)

/-- `write_str` below capacity, with the branch structure resolved. -/
lemma write_str_eq (b : EntryBufW) (s : List Nat) (h : b.data.length ≠ MAX_ENTRY_SIZE) :
    b.write_str s =
      (⟨b.data ++ s.take (if MAX_ENTRY_SIZE - 1 - b.data.length < s.length
          then backUp s (MAX_ENTRY_SIZE - 1 - b.data.length) else s.length)⟩,
        (if MAX_ENTRY_SIZE - 1 - b.data.length < s.length
          then backUp s (MAX_ENTRY_SIZE - 1 - b.data.length) else s.length) == s.length) := by
  unfold EntryBufW.write_str
  rw [if_neg h]

lemma write_str_len_lt (b : EntryBufW) (s : List Nat) (h : b.data.length < MAX_ENTRY_SIZE) :
    (b.write_str s).1.data.length < MAX_ENTRY_SIZE := by
  rw [write_str_eq b s (by omega)]
  simp only [List.length_append, List.length_take]
  split
  · have := backUp_le s (MAX_ENTRY_SIZE - 1 - b.data.length)
    omega
  · rename_i hcap
    omega

lemma write_str_valid (b : EntryBufW) (s : List Nat) (hlen : b.data.length < MAX_ENTRY_SIZE)
    (hbv : utf8Valid b.data = true) (hsv : utf8Valid s = true) :
    utf8Valid (b.write_str s).1.data = true := by
  rw [write_str_eq b s (by omega)]
  simp only
  split
  · rename_i hcap
    apply utf8Valid_append _ _ hbv
    have hmlt : backUp s (MAX_ENTRY_SIZE - 1 - b.data.length) < s.length :=
      lt_of_le_of_lt (backUp_le _ _) hcap
    apply utf8Valid_take s _ (le_of_lt hmlt) ?_ hsv
    rcases backUp_boundary s (MAX_ENTRY_SIZE - 1 - b.data.length) with h0 | hnc
    · exact Or.inl h0
    · refine Or.inr (Or.inr ?_)
      have hmem : s.getD (backUp s (MAX_ENTRY_SIZE - 1 - b.data.length)) 0 ∈ s := by
        rw [List.getD_eq_getElem s 0 hmlt]
        exact List.getElem_mem hmlt
      rw [← isContByte_eq_isContR _ (utf8Valid_bytes s hsv _ hmem)]
      exact hnc
  · rw [List.take_length]
    exact utf8Valid_append _ _ hbv hsv

/-- The Writing-phase invariant of the source (src/entry_buf.rs lines 20-26):
a reachable Writing buffer has `len < MAX_ENTRY_SIZE` and holds valid UTF-8. -/
lemma reachable_inv (b : EntryBufW) (h : ReachableW b) :
    b.data.length < MAX_ENTRY_SIZE ∧ utf8Valid b.data = true := by
  induction h with
  | new => exact ⟨by simp [EntryBufW.new, MAX_ENTRY_SIZE], rfl⟩
  | write b s hb hs ih =>
    exact ⟨write_str_len_lt b s ih.1, write_str_valid b s ih.1 ih.2 hs⟩

/-! ## Claims about the EntryBuf -/

/-- C2: appending any text of byte length at most `MAX_ENTRY_SIZE - 1` to
a fresh buffer succeeds, and terminating and reading back yields exactly
the text followed by one newline byte. -/
theorem c2_entrybuf_roundtrip (t : List Nat) (hv : utf8Valid t = true)
    (hlen : t.length ≤ MAX_ENTRY_SIZE - 1) :
    (EntryBufW.new.write_str t).2 = true ∧
    (EntryBufW.new.write_str t).1.terminate.get = t ++ [10] := by
  rw [write_str_eq _ t (by simp [EntryBufW.new, MAX_ENTRY_SIZE])]
  have hcap : ¬ (MAX_ENTRY_SIZE - 1 - EntryBufW.new.data.length < t.length) := by
    simp only [EntryBufW.new, List.length_nil, Nat.sub_zero]
    omega
  simp only [if_neg hcap]
  refine ⟨by simp, ?_⟩
  simp [EntryBufW.terminate, EntryBufR.get, EntryBufW.new, List.take_length]

/-- Witness for C2 at the text `"foo"`. -/
theorem c2_entrybuf_roundtrip_witness :
    utf8Valid [102, 111, 111] = true ∧
    [102, 111, 111].length ≤ MAX_ENTRY_SIZE - 1 ∧
    ((EntryBufW.new.write_str [102, 111, 111]).2 = true ∧
      (EntryBufW.new.write_str [102, 111, 111]).1.terminate.get = [102, 111, 111] ++ [10]) :=
  ⟨by decide, by decide, c2_entrybuf_roundtrip [102, 111, 111] (by decide) (by decide)⟩

/-- C3: every reachable Writing-phase buffer keeps `len < MAX_ENTRY_SIZE`
with valid text in `[0, len)`, so `terminate` has the reserved final byte
available: it appends exactly the one newline byte, stays within the
buffer bounds, and leaves valid text ending in a newline byte. -/
theorem c3_writing_invariant (b : EntryBufW) (h : ReachableW b) :
    b.data.length < MAX_ENTRY_SIZE ∧
    utf8Valid b.data = true ∧
    b.terminate.get = b.data ++ [10] ∧
    b.terminate.get.length ≤ MAX_ENTRY_SIZE ∧
    utf8Valid b.terminate.get = true ∧
    b.terminate.get.getLast? = some 10 := by
  obtain ⟨h1, h2⟩ := reachable_inv b h
  refine ⟨h1, h2, rfl, ?_, ?_, ?_⟩
  · simp only [EntryBufW.terminate, EntryBufR.get, List.length_append, List.length_cons,
      List.length_nil]
    omega
  · exact utf8Valid_append _ _ h2 rfl
  · simp [EntryBufW.terminate, EntryBufR.get]

/-- Witness for C3 at the fresh buffer. -/
theorem c3_writing_invariant_witness :
    EntryBufW.new.data.length < MAX_ENTRY_SIZE ∧
    utf8Valid EntryBufW.new.data = true ∧
    EntryBufW.new.terminate.get = EntryBufW.new.data ++ [10] ∧
    EntryBufW.new.terminate.get.length ≤ MAX_ENTRY_SIZE ∧
    utf8Valid EntryBufW.new.terminate.get = true ∧
    EntryBufW.new.terminate.get.getLast? = some 10 :=
  c3_writing_invariant EntryBufW.new ReachableW.new

/-- C4: a single append of a text of byte length at least `MAX_ENTRY_SIZE`
to a fresh buffer reports truncation, and the terminated entry is the
prefix of the text cut at `MAX_ENTRY_SIZE - 1` — exactly there when that
byte starts an encoding unit, otherwise backed off to the last boundary
strictly before it — followed by one newline byte, and is always valid
text, never an invalid fragment. -/
theorem c4_truncation (t : List Nat) (hv : utf8Valid t = true)
    (hlen : MAX_ENTRY_SIZE ≤ t.length) :
    (EntryBufW.new.write_str t).2 = false ∧
    (EntryBufW.new.write_str t).1.terminate.get =
      t.take (backUp t (MAX_ENTRY_SIZE - 1)) ++ [10] ∧
    backUp t (MAX_ENTRY_SIZE - 1) ≤ MAX_ENTRY_SIZE - 1 ∧
    (isContByte (t.getD (MAX_ENTRY_SIZE - 1) 0) = false →
      backUp t (MAX_ENTRY_SIZE - 1) = MAX_ENTRY_SIZE - 1) ∧
    (backUp t (MAX_ENTRY_SIZE - 1) = 0 ∨
      isContByte (t.getD (backUp t (MAX_ENTRY_SIZE - 1)) 0) = false) ∧
    (∀ j, backUp t (MAX_ENTRY_SIZE - 1) < j → j ≤ MAX_ENTRY_SIZE - 1 →
      isContByte (t.getD j 0) = true) ∧
    utf8Valid ((EntryBufW.new.write_str t).1.terminate.get) = true := by
  rw [write_str_eq _ t (by simp [EntryBufW.new, MAX_ENTRY_SIZE])]
  simp only [EntryBufW.new, List.length_nil, Nat.sub_zero]
  have hcap : MAX_ENTRY_SIZE - 1 < t.length := by
    unfold MAX_ENTRY_SIZE at hlen ⊢
    omega
  rw [if_pos hcap]
  have hble := backUp_le t (MAX_ENTRY_SIZE - 1)
  have hmlt : backUp t (MAX_ENTRY_SIZE - 1) < t.length := lt_of_le_of_lt hble hcap
  have hvtake : utf8Valid (t.take (backUp t (MAX_ENTRY_SIZE - 1))) = true := by
    apply utf8Valid_take t _ (le_of_lt hmlt) ?_ hv
    rcases backUp_boundary t (MAX_ENTRY_SIZE - 1) with h0 | hnc
    · exact Or.inl h0
    · refine Or.inr (Or.inr ?_)
      have hmem : t.getD (backUp t (MAX_ENTRY_SIZE - 1)) 0 ∈ t := by
        rw [List.getD_eq_getElem t 0 hmlt]
        exact List.getElem_mem hmlt
      rw [← isContByte_eq_isContR _ (utf8Valid_bytes t hv _ hmem)]
      exact hnc
  refine ⟨?_, ?_, hble, ?_, backUp_boundary t _, backUp_maximal t _, ?_⟩
  · rw [beq_eq_false_iff_ne]
    omega
  · simp [EntryBufW.terminate, EntryBufR.get]
  · intro hnb
    by_contra hne
    have hblt : backUp t (MAX_ENTRY_SIZE - 1) < MAX_ENTRY_SIZE - 1 :=
      lt_of_le_of_ne hble hne
    have := backUp_maximal t (MAX_ENTRY_SIZE - 1) (MAX_ENTRY_SIZE - 1) hblt le_rfl
    rw [this] at hnb
    exact absurd hnb (by simp)
  · simp only [EntryBufW.terminate, EntryBufR.get, List.nil_append]
    exact utf8Valid_append _ _ hvtake rfl

/-- Witness for C4 at `MAX_ENTRY_SIZE` copies of `"e"`. -/
theorem c4_truncation_witness :
    utf8Valid (List.replicate MAX_ENTRY_SIZE 101) = true ∧
    MAX_ENTRY_SIZE ≤ (List.replicate MAX_ENTRY_SIZE 101).length ∧
    (EntryBufW.new.write_str (List.replicate MAX_ENTRY_SIZE 101)).2 = false :=
  ⟨utf8Valid_replicate_e _, by simp,
    (c4_truncation (List.replicate MAX_ENTRY_SIZE 101) (utf8Valid_replicate_e _)
      (by simp)).1⟩

/-- A full write of `MAX_ENTRY_SIZE - 1` ASCII bytes into a fresh buffer:
it fits exactly, leaving `len = MAX_ENTRY_SIZE - 1`. -/
lemma write_full_replicate :
    (EntryBufW.new.write_str (List.replicate (MAX_ENTRY_SIZE - 1) 101)).1 =
      ⟨List.replicate (MAX_ENTRY_SIZE - 1) 101⟩ := by
  rw [write_str_eq _ _ (by simp [EntryBufW.new, MAX_ENTRY_SIZE])]
  simp [EntryBufW.new]

/-- An append of the empty text below capacity is a successful no-op. -/
lemma write_str_nil (b : EntryBufW) (h : b.data.length ≠ MAX_ENTRY_SIZE) :
    b.write_str [] = (b, true) := by
  rw [write_str_eq b [] h]
  simp only [List.length_nil]
  rw [if_neg (Nat.not_lt_zero _)]
  cases b with
  | mk data => simp

/-- C5 as stated is false: an append of the empty string made when `len`
has already reached `MAX_ENTRY_SIZE - 1` writes nothing yet reports
success, not truncation (src/entry_buf.rs lines 88-96 skip the truncation
branch for an empty input). -/
theorem c5_counterexample :
    ¬ (∀ b : EntryBufW, ReachableW b → ∀ s : List Nat,
        ((b.write_str s).2 = false ↔ ¬ ((b.write_str s).1.data = b.data ++ s)) ∧
        (b.data.length = MAX_ENTRY_SIZE - 1 →
          (b.write_str s).1.data = b.data ∧ (b.write_str s).2 = false)) := by
  intro h
  have hreach : ReachableW (EntryBufW.new.write_str (List.replicate (MAX_ENTRY_SIZE - 1) 101)).1 :=
    ReachableW.write _ _ ReachableW.new (utf8Valid_replicate_e _)
  rw [write_full_replicate] at hreach
  have hlen : (⟨List.replicate (MAX_ENTRY_SIZE - 1) 101⟩ : EntryBufW).data.length
      = MAX_ENTRY_SIZE - 1 := by simp
  have hfalse := (h _ hreach []).2 hlen |>.2
  rw [write_str_nil _ (by rw [hlen]; unfold MAX_ENTRY_SIZE; omega)] at hfalse
  exact Bool.noConfusion hfalse

/-- C5 amended: `write_str` reports truncation exactly when not all of the
input was appended, and a *non-empty* append made after `len` has reached
`MAX_ENTRY_SIZE - 1` writes nothing and reports truncation (the empty
append at that point writes nothing but reports success). -/
theorem c5_truncation_report_amended (b : EntryBufW) (h : ReachableW b) (s : List Nat) :
    ((b.write_str s).2 = false ↔ ¬ ((b.write_str s).1.data = b.data ++ s)) ∧
    (b.data.length = MAX_ENTRY_SIZE - 1 → s ≠ [] →
      (b.write_str s).1.data = b.data ∧ (b.write_str s).2 = false) := by
  have hlen := (reachable_inv b h).1
  rw [write_str_eq b s (by omega)]
  constructor
  · split
    · rename_i hcap
      have hlt : backUp s (MAX_ENTRY_SIZE - 1 - b.data.length) < s.length :=
        lt_of_le_of_lt (backUp_le _ _) hcap
      simp only [beq_eq_false_iff_ne, ne_eq]
      constructor
      · intro _ hdata
        have := congrArg List.length hdata
        simp only [List.length_append, List.length_take] at this
        omega
      · intro _
        omega
    · simp only [List.take_length, beq_self_eq_true]
      simp
  · intro hfull hne
    have hcap : MAX_ENTRY_SIZE - 1 - b.data.length < s.length := by
      rw [hfull]
      simp only [Nat.sub_self]
      exact List.length_pos.mpr hne
    simp only [if_pos hcap]
    rw [hfull] at hcap ⊢
    simp only [Nat.sub_self] at hcap ⊢
    constructor
    · simp [backUp]
    · rw [beq_eq_false_iff_ne]
      simp only [backUp]
      omega

/-- Witness for the amended C5 at a fresh buffer and the text `"e"`. -/
theorem c5_truncation_report_amended_witness :
    (((EntryBufW.new.write_str [101]).2 = false ↔
        ¬ ((EntryBufW.new.write_str [101]).1.data = EntryBufW.new.data ++ [101])) ∧
      (EntryBufW.new.data.length = MAX_ENTRY_SIZE - 1 → [101] ≠ [] →
        (EntryBufW.new.write_str [101]).1.data = EntryBufW.new.data ∧
          (EntryBufW.new.write_str [101]).2 = false)) :=
  c5_truncation_report_amended EntryBufW.new ReachableW.new [101]

/-- C10: appending the empty text to any reachable Writing-phase buffer
(including one whose `len` has reached `MAX_ENTRY_SIZE - 1`) succeeds and
leaves the buffer unchanged. -/
theorem c10_append_empty_identity (b : EntryBufW) (h : ReachableW b) :
    b.write_str [] = (b, true) := by
  have hlen := (reachable_inv b h).1
  exact write_str_nil b (by omega)

/-- Witness for C10 at the fresh buffer. -/
theorem c10_append_empty_identity_witness :
    EntryBufW.new.write_str [] = (EntryBufW.new, true) :=
  c10_append_empty_identity EntryBufW.new ReachableW.new

/-! ## Logger (src/lib.rs) -/

/-- A log record as seen by `Logger::log`: its target and level. -/
structure LogRecord where
  target : String
  level : Level

/-- The logger's lock-protected state (src/lib.rs lines 348-351). -/
structure LoggerInner where
  async_buf : List Nat
  use_async : Bool
deriving DecidableEq, Repr

/-- `Logger::enabled` (src/lib.rs lines 391-393):
`spec.get_level(target) >= level`, compared by discriminant as in the
`log` crate. -/
def Logger.enabled (spec : Specification) (r : LogRecord) : Bool :=
  decide (r.level.toNat ≤ (spec.get_level r.target).toNat)

/-- One call of `Logger::log` (src/lib.rs lines 395-424), as a function of
the bytes the (external) formatting collaborator renders for the record.
Returns the updated shared state and destination sink; `none` when the
call blocks waiting for room in the asynchronous buffer (lines 419-421). -/
def Logger.logStep (spec : Specification) (fmtBytes : List Nat) (st : LoggerInner)
    (sink : List Nat) (r : LogRecord) : Option (LoggerInner × List Nat) :=
  if Logger.enabled spec r = false then some (st, sink)
  else
    let msg := ((EntryBufW.new.write_str fmtBytes).1.terminate).get
    if st.use_async = false then some (st, sink ++ msg)
    else if ASYNC_BUF_SIZE < st.async_buf.length + msg.length then none
    else some ({ st with async_buf := st.async_buf ++ msg }, sink)

/-- C8: a record whose target's effective level is strictly below the
record's level is dropped immediately: the shared state and the sink are
unchanged, nothing is written. -/
theorem c8_disabled_no_side_effects (spec : Specification) (fmtBytes : List Nat)
    (st : LoggerInner) (sink : List Nat) (r : LogRecord)
    (h : (spec.get_level r.target).toNat < r.level.toNat) :
    Logger.logStep spec fmtBytes st sink r = some (st, sink) := by
  have he : Logger.enabled spec r = false := by
    unfold Logger.enabled
    simp only [decide_eq_false_iff_not]
    omega
  unfold Logger.logStep
  rw [if_pos he]

/-- Witness for C8: an `Error`-only specification drops a `Warn` record. -/
theorem c8_disabled_no_side_effects_witness :
    ((Specification.new "").get_level "foo").toNat < Level.Warn.toNat ∧
    Logger.logStep (Specification.new "") [] ⟨[], false⟩ [] ⟨"foo", Level.Warn⟩ =
      some (⟨[], false⟩, []) :=
  ⟨by decide, c8_disabled_no_side_effects _ _ _ _ _ (by decide)⟩

/-! ## The asynchronous exchange (src/lib.rs lines 302-334 and 365-424)

The async protocol is embedded as a transition system whose transitions
are the mutex-protected critical sections of the source (made atomic with
respect to one another by the mutex) plus the consumer's unlocked sink
write.  Producer `i` holds a queue `rem[i]` of entries still to log; the
ghost field `enq` records the entries appended to `async_buf`, in order.
Condition-variable waits appear as transition guards: a blocked thread's
transition is simply not enabled until its guard holds. -/

/-- The consumer thread's position in its loop (`run_async`,
src/lib.rs lines 365-387). -/
inductive ConsumerPC where
  /-- At the top of the loop: about to lock, optionally wait, and swap. -/
  | swapping
  /-- Between the swap and the sink write: holds the swapped-out bytes and
  the `use_async` value recorded under the lock. -/
  | writing (localBuf : List Nat) (useAsync : Bool)
  /-- The loop has exited, so the `join` in `AsyncHandle::drop` returns. -/
  | done
deriving DecidableEq, Repr

/-- Global state of the async pipeline: the lock-protected `LoggerInner`,
the per-producer queues of entries still to emit, the consumer position,
the destination sink, and the ghost enqueue log. -/
structure AsyncState where
  inner : LoggerInner
  rem : List (List (List Nat))
  cpc : ConsumerPC
  sink : List Nat
  enq : List (List Nat)
deriving Repr

/-- One transition of the async pipeline. -/
inductive AsyncStep : AsyncState → AsyncState → Prop where
  /-- Producer `i` appends its next entry (src/lib.rs lines 409-423): only
  in async mode, and only once the entry fits — the `wake_producers` wait
  loop (lines 419-421) ends exactly when it fits. -/
  | produce (st : AsyncState) (i : Nat) (e : List Nat) (rest : List (List Nat))
      (ha : st.inner.use_async = true)
      (hi : st.rem.get? i = some (e :: rest))
      (hroom : st.inner.async_buf.length + e.length ≤ ASYNC_BUF_SIZE) :
      AsyncStep st { st with
        inner := { st.inner with async_buf := st.inner.async_buf ++ e },
        rem := st.rem.set i rest,
        enq := st.enq ++ [e] }
  /-- The consumer's critical section (src/lib.rs lines 370-379): record
  `use_async`, swap the buffer out, wake the producers. -/
  | swap (st : AsyncState) (h : st.cpc = ConsumerPC.swapping) :
      AsyncStep st { st with
        inner := { st.inner with async_buf := [] },
        cpc := ConsumerPC.writing st.inner.async_buf st.inner.use_async }
  /-- The consumer's unlocked sink write (src/lib.rs lines 381-385) and
  loop test (line 368): deliver the swapped-out bytes, then loop again or
  exit. -/
  | write (st : AsyncState) (lb : List Nat) (flag : Bool)
      (h : st.cpc = ConsumerPC.writing lb flag) :
      AsyncStep st { st with
        sink := st.sink ++ lb,
        cpc := if flag then ConsumerPC.swapping else ConsumerPC.done }
  /-- The critical section of `AsyncHandle::drop` (src/lib.rs lines
  328-332): leave async mode.  In the claim's scenario the disable happens
  after every producer has emitted all of its entries. -/
  | disable (st : AsyncState) (ha : st.inner.use_async = true)
      (hdone : ∀ q ∈ st.rem, q = []) :
      AsyncStep st { st with inner := { st.inner with use_async := false } }

/-- The pipeline state right after `Handle::async_scope` (src/lib.rs lines
302-318): async mode on, empty buffer, consumer entering its loop. -/
def asyncInit (producers : List (List (List Nat))) : AsyncState :=
  { inner := { async_buf := [], use_async := true },
    rem := producers,
    cpc := ConsumerPC.swapping,
    sink := [],
    enq := [] }

/-- The bytes the consumer holds between its swap and its sink write. -/
def cLocal : ConsumerPC → List Nat
  | ConsumerPC.writing lb _ => lb
  | _ => []

/-- Inductive invariant of the async pipeline. -/
structure AsyncInv (producers : List (List (List Nat))) (st : AsyncState) : Prop where
  /-- No byte is lost or duplicated: sink, consumer-held bytes and the
  shared buffer together hold exactly the enqueued entries, in order. -/
  conserve : st.sink ++ cLocal st.cpc ++ st.inner.async_buf = st.enq.flatten
  /-- The enqueued entries plus each producer's remaining entries are a
  permutation of all the entries. -/
  perm : (st.enq ++ st.rem.flatten).Perm producers.flatten
  /-- After async mode is disabled, no producer still holds an entry
  (the claim's scenario: all entries emitted before the disable). -/
  noasync : st.inner.use_async = false → st.rem.flatten = []
  /-- Once the consumer has recorded `use_async = false` at a swap, the
  mode is off and the shared buffer was emptied by that swap. -/
  writingFalse : ∀ lb, st.cpc = ConsumerPC.writing lb false →
    st.inner.use_async = false ∧ st.inner.async_buf = []
  /-- When the consumer's loop has exited, the mode is off and the shared
  buffer is empty. -/
  doneFlushed : st.cpc = ConsumerPC.done →
    st.inner.use_async = false ∧ st.inner.async_buf = []

/-- Removing the head entry of one producer's queue only reorders the
multiset of remaining entries. -/
lemma flattenSetPerm (L : List (List (List Nat))) (i : Nat) (x : List Nat)
    (xs : List (List Nat)) (h : L.get? i = some (x :: xs)) :
    L.flatten.Perm (x :: (L.set i xs).flatten) := by
  induction L generalizing i with
  | nil => simp at h
  | cons q rest ih =>
    cases i with
    | zero =>
      simp only [List.get?] at h
      injection h with h
      subst h
      simp only [List.set, List.flatten_cons, List.cons_append]
      exact List.Perm.refl _
    | succ i =>
      simp only [List.get?] at h
      have hperm := ih i h
      simp only [List.set, List.flatten_cons]
      exact (List.Perm.append_left q hperm).trans List.perm_middle

lemma asyncInv_init (producers : List (List (List Nat))) :
    AsyncInv producers (asyncInit producers) := by
  refine ⟨rfl, by simp [asyncInit], ?_, ?_, ?_⟩
  · intro h
    exact absurd h (by simp [asyncInit])
  · intro lb hw
    exact ConsumerPC.noConfusion hw
  · intro hd
    exact ConsumerPC.noConfusion hd

lemma asyncInv_step (producers : List (List (List Nat))) (st st' : AsyncState)
    (hinv : AsyncInv producers st) (hs : AsyncStep st st') : AsyncInv producers st' := by
  cases hs with
  | produce i e rest ha hi hroom =>
    refine ⟨?_, ?_, ?_, ?_, ?_⟩
    · show st.sink ++ cLocal st.cpc ++ (st.inner.async_buf ++ e) = (st.enq ++ [e]).flatten
      rw [List.flatten_append, ← hinv.conserve]
      simp [List.append_assoc]
    · show ((st.enq ++ [e]) ++ (st.rem.set i rest).flatten).Perm producers.flatten
      have hkey := flattenSetPerm st.rem i e rest hi
      refine List.Perm.trans ?_ hinv.perm
      rw [show (st.enq ++ [e]) ++ (st.rem.set i rest).flatten
          = st.enq ++ (e :: (st.rem.set i rest).flatten) from by simp]
      exact List.Perm.append_left _ hkey.symm
    · intro hfa
      rw [show ({ st with
          inner := { st.inner with async_buf := st.inner.async_buf ++ e },
          rem := st.rem.set i rest,
          enq := st.enq ++ [e] } : AsyncState).inner.use_async = st.inner.use_async
        from rfl, ha] at hfa
      exact Bool.noConfusion hfa
    · intro lb hw
      have := (hinv.writingFalse lb hw).1
      rw [ha] at this
      exact Bool.noConfusion this
    · intro hd
      have := (hinv.doneFlushed hd).1
      rw [ha] at this
      exact Bool.noConfusion this
  | swap hcpc =>
    refine ⟨?_, ?_, ?_, ?_, ?_⟩
    · show st.sink ++ cLocal (ConsumerPC.writing st.inner.async_buf st.inner.use_async) ++ []
        = st.enq.flatten
      have hold := hinv.conserve
      rw [hcpc] at hold
      simp only [cLocal] at hold ⊢
      simpa using hold
    · exact hinv.perm
    · exact hinv.noasync
    · intro lb hw
      injection hw with h1 h2
      exact ⟨h2, rfl⟩
    · intro hd
      exact ConsumerPC.noConfusion hd
  | write lb flag hcpc =>
    refine ⟨?_, ?_, ?_, ?_, ?_⟩
    · show (st.sink ++ lb) ++ cLocal (if flag then ConsumerPC.swapping else ConsumerPC.done)
        ++ st.inner.async_buf = st.enq.flatten
      have hold := hinv.conserve
      rw [hcpc] at hold
      simp only [cLocal] at hold
      cases flag
      · show st.sink ++ lb ++ cLocal ConsumerPC.done ++ st.inner.async_buf = st.enq.flatten
        simp only [cLocal, List.append_nil]
        exact hold
      · show st.sink ++ lb ++ cLocal ConsumerPC.swapping ++ st.inner.async_buf
          = st.enq.flatten
        simp only [cLocal, List.append_nil]
        exact hold
    · exact hinv.perm
    · exact hinv.noasync
    · intro lb' hw
      cases flag <;> exact ConsumerPC.noConfusion hw
    · intro hd
      cases flag with
      | false => exact hinv.writingFalse lb hcpc
      | true => exact ConsumerPC.noConfusion hd
  | disable ha hdone =>
    refine ⟨hinv.conserve, hinv.perm, ?_, ?_, ?_⟩
    · intro _
      show st.rem.flatten = []
      rcases hrem : st.rem.flatten with _ | ⟨x, xs⟩
      · rfl
      · exfalso
        have hx : x ∈ st.rem.flatten := by rw [hrem]; exact List.mem_cons_self x xs
        obtain ⟨q, hq, hxq⟩ := List.mem_flatten.mp hx
        rw [hdone q hq] at hxq
        exact List.not_mem_nil x hxq
    · intro lb hw
      have := (hinv.writingFalse lb hw).1
      rw [ha] at this
      exact Bool.noConfusion this
    · intro hd
      have := (hinv.doneFlushed hd).1
      rw [ha] at this
      exact Bool.noConfusion this

lemma asyncInv_reach (producers : List (List (List Nat))) (st : AsyncState)
    (h : Relation.ReflTransGen AsyncStep (asyncInit producers) st) :
    AsyncInv producers st := by
  induction h with
  | refl => exact asyncInv_init producers
  | tail h1 h2 ih => exact asyncInv_step producers _ _ ih h2

lemma sum_lengths_const (L : List (List (List Nat))) (M : Nat)
    (h : ∀ q ∈ L, q.length = M) : (L.map List.length).sum = L.length * M := by
  induction L with
  | nil => simp
  | cons q rest ih =>
    simp only [List.map_cons, List.sum_cons, List.length_cons,
      h q (List.mem_cons_self q rest), ih (fun p hp => h p (List.mem_cons_of_mem q hp))]
    ring

/-- C9: with async mode on, if the producers emit all of their entries
(each of the `P` producers' queues holding `M` newline-terminated entries)
and async mode is then disabled, then once the consumer's loop has exited
— which is exactly when the `join` inside the disabling `drop` returns —
the sink holds precisely the enqueued entries in enqueue order: a
permutation of all `P * M` entries, none lost, none duplicated, none
split across positions, each still newline-terminated, and the byte
counts add up. -/
theorem c9_async_delivery (producers : List (List (List Nat))) (M : Nat)
    (hM : ∀ q ∈ producers, q.length = M)
    (hnl : ∀ q ∈ producers, ∀ e ∈ q, e ≠ [] ∧ e.getLast? = some 10)
    (st : AsyncState)
    (hreach : Relation.ReflTransGen AsyncStep (asyncInit producers) st)
    (hdone : st.cpc = ConsumerPC.done) :
    st.sink = st.enq.flatten ∧
    st.enq.Perm producers.flatten ∧
    st.enq.length = producers.length * M ∧
    st.sink.length = (producers.flatten.map List.length).sum ∧
    (∀ e ∈ st.enq, e ≠ [] ∧ e.getLast? = some 10) := by
  have hinv := asyncInv_reach producers st hreach
  obtain ⟨hua, hbuf⟩ := hinv.doneFlushed hdone
  have hrem : st.rem.flatten = [] := hinv.noasync hua
  have hsink : st.sink = st.enq.flatten := by
    have hc := hinv.conserve
    rw [hdone] at hc
    simp only [cLocal] at hc
    rw [hbuf] at hc
    simpa using hc
  have hperm : st.enq.Perm producers.flatten := by
    have hp := hinv.perm
    rw [hrem] at hp
    simpa using hp
  refine ⟨hsink, hperm, ?_, ?_, ?_⟩
  · rw [hperm.length_eq, List.length_flatten]
    exact sum_lengths_const producers M hM
  · rw [hsink, List.length_flatten]
    exact (hperm.map List.length).sum_eq
  · intro e he
    obtain ⟨q, hq, heq⟩ := List.mem_flatten.mp (hperm.mem_iff.mp he)
    exact hnl q hq e heq

/-- Witness for C9: zero producers; the consumer is disabled, performs its
final empty drain and exits; the sink then equals the (empty) enqueue log. -/
theorem c9_async_delivery_witness :
    (∀ q ∈ ([] : List (List (List Nat))), q.length = 0) ∧
    ((⟨⟨[], false⟩, [], ConsumerPC.done, [], []⟩ : AsyncState).sink =
      (⟨⟨[], false⟩, [], ConsumerPC.done, [], []⟩ : AsyncState).enq.flatten) := by
  refine ⟨by simp, ?_⟩
  have hchain : Relation.ReflTransGen AsyncStep (asyncInit [])
      (⟨⟨[], false⟩, [], ConsumerPC.done, [], []⟩ : AsyncState) :=
    Relation.ReflTransGen.tail
      (Relation.ReflTransGen.tail
        (Relation.ReflTransGen.tail Relation.ReflTransGen.refl
          (AsyncStep.disable _ rfl (fun q hq => absurd hq (List.not_mem_nil q))))
        (AsyncStep.swap _ rfl))
      (AsyncStep.write _ [] false rfl)
  exact (c9_async_delivery [] 0 (fun q hq => absurd hq (List.not_mem_nil q))
    (fun q hq => absurd hq (List.not_mem_nil q)) _ hchain rfl).1

end Mylog
